import Mathlib

/-!
Verification of the minesweeper board engine (`src/minesweeper.py`).

The board is embedded as a total function from integer coordinates to
cells; the Python list-of-lists indexing (including negative-index
wrapping and IndexError) is modelled by `pyCell`.  The recursive flood
fill `Board.dig` is embedded as the fuel-indexed pair `digF`/`digListF`
(structural recursion on the fuel), and `dig` runs it with a fuel bound
that is proved sufficient, so that running out of fuel is never an
actual behaviour of the modelled program.
-/

namespace Minesweeper

/-- A cell of the Python board list: `"*"` (a bomb), `None` (an
unassigned blank, present only before `assign_values_to_board` runs),
or an assigned neighbour count. -/
inductive Cell where
  | star : Cell
  | vacant : Cell
  | num : Nat → Cell
deriving DecidableEq

/-- The board contents, as a total function on integer coordinates.
Only coordinates inside the grid are ever read or written by the
modelled code paths. -/
def Grid : Type := ℤ × ℤ → Cell

/-- The in-range coordinates of an `n × n` board, as integer pairs. -/
def gridZ (n : ℕ) : Finset (ℤ × ℤ) :=
  Finset.Icc (0 : ℤ) ((n : ℤ) - 1) ×ˢ Finset.Icc (0 : ℤ) ((n : ℤ) - 1)

/-- Python list indexing: a negative index `i` with `-n ≤ i` denotes
position `n + i`. -/
def pyWrap (n : ℕ) (i : ℤ) : ℤ :=
  if i < 0 then i + n else i

/-- `board[row][col]` on an `n × n` list of lists: `none` models the
`IndexError` raised when either index is out of Python's accepted
range `[-n, n)`. -/
def pyCell (n : ℕ) (g : Grid) (row col : ℤ) : Option Cell :=
  if -(n : ℤ) ≤ row ∧ row < n ∧ -(n : ℤ) ≤ col ∧ col < n then
    some (g (pyWrap n row, pyWrap n col))
  else
    none

/-- The integer interval `[lo, stop)` as a list, mirroring Python's
`range(lo, stop)`. -/
def intRange (lo stop : ℤ) : List ℤ :=
  (List.range (stop - lo).toNat).map (fun i : ℕ => lo + (i : ℤ))

/-- The clipped neighbourhood traversed by the source's nested loops
`range(max(0, row-1), min(n-1, row+1)+1)` (rows) and the same for
columns.  Note this list contains `(row, col)` itself; the source
relies on the dug-set check (for `dig`) or an explicit skip (for
counting) to ignore it. -/
def neighbors (n : ℕ) (row col : ℤ) : List (ℤ × ℤ) :=
  (intRange (max 0 (row - 1)) (min ((n : ℤ) - 1) (row + 1) + 1)).bind
    (fun r => (intRange (max 0 (col - 1)) (min ((n : ℤ) - 1) (col + 1) + 1)).map
      (fun c => (r, c)))

/-- `Board.get_num_neighboring_bombs`: count the `"*"` cells in the
clipped neighbourhood, skipping the centre cell itself.  It reads the
grid passed to it (during `assign_values_to_board` that grid is the
partially overwritten board; only `= "*"` comparisons are made, so the
overwriting is harmless, which is proved below). -/
def get_num_neighboring_bombs (n : ℕ) (g : Grid) (row col : ℤ) : ℕ :=
  (neighbors n row col).countP
    (fun p => decide (¬(p.1 = row ∧ p.2 = col) ∧ g p = Cell.star))

/-- The planting loop of `Board.make_new_board`.  `draws i` models the
value returned by the `i`-th call of `random.randint(0, n*n - 1)`;
`fuel` bounds the number of loop iterations (the Python loop is
unbounded, so `none` means the loop has not finished within `fuel`
iterations). -/
def plantLoop (n : ℕ) (num_bombs : ℤ) (draws : ℕ → ℕ) :
    ℕ → ℕ → ℕ → Grid → Option Grid
  | fuel, idx, planted, g =>
    if (planted : ℤ) < num_bombs then
      match fuel with
      | 0 => none
      | fuel + 1 =>
        if g (((draws idx / n : ℕ) : ℤ), ((draws idx % n : ℕ) : ℤ)) = Cell.star then
          plantLoop n num_bombs draws fuel (idx + 1) planted g
        else
          plantLoop n num_bombs draws fuel (idx + 1) (planted + 1)
            (Function.update g
              (((draws idx / n : ℕ) : ℤ), ((draws idx % n : ℕ) : ℤ)) Cell.star)
    else
      some g

/-- `Board.make_new_board`: start from an all-`None` board and plant
`num_bombs` bombs at the drawn positions, retrying on collision. -/
def make_new_board (n : ℕ) (num_bombs : ℤ) (draws : ℕ → ℕ) (fuel : ℕ) :
    Option Grid :=
  plantLoop n num_bombs draws fuel 0 0 (fun _ => Cell.vacant)

/-- One step of `Board.assign_values_to_board`: the body of the nested
loops at one coordinate (skip a bomb, otherwise store the neighbour
count computed from the current, partially updated board). -/
def assignStep (n : ℕ) (g : Grid) (p : ℤ × ℤ) : Grid :=
  if g p = Cell.star then g
  else Function.update g p (Cell.num (get_num_neighboring_bombs n g p.1 p.2))

/-- The row-major traversal order of `assign_values_to_board`. -/
def coordsList (n : ℕ) : List (ℤ × ℤ) :=
  (List.range n).bind
    (fun r : ℕ => (List.range n).map (fun c : ℕ => ((r : ℤ), (c : ℤ))))

/-- `Board.assign_values_to_board`: in-place sequential assignment of
neighbour counts, modelled by a left fold of the per-cell step over
the row-major coordinate list. -/
def assign_values_to_board (n : ℕ) (g : Grid) : Grid :=
  (coordsList n).foldl (assignStep n) g

/-- The `Board` object: dimension, requested bomb count, the (assigned)
board contents, and the dug set.  The dug set holds raw integer pairs,
exactly as the Python `set` of tuples does, so out-of-range pairs can
appear in it. -/
structure Board where
  dimension_size : ℕ
  num_bombs : ℤ
  board : Grid
  dug : Finset (ℤ × ℤ)

/-- `Board.__init__`: build the board, assign the counts, start with an
empty dug set. -/
def Board.init (n : ℕ) (num_bombs : ℤ) (draws : ℕ → ℕ) (fuel : ℕ) :
    Option Board :=
  (make_new_board n num_bombs draws fuel).map (fun g =>
    { dimension_size := n
      num_bombs := num_bombs
      board := assign_values_to_board n g
      dug := ∅ })

/-- Result of a `dig` call: `ok dug b` is a normal return (`b` is the
Python boolean result) together with the final dug set; `crash` models
an escaping Python exception (IndexError from indexing, or TypeError
from `None > 0`); `fuelOut` is fuel exhaustion of the model, never a
program behaviour once the fuel is large enough. -/
inductive DigResult where
  | ok : Finset (ℤ × ℤ) → Bool → DigResult
  | crash : DigResult
  | fuelOut : DigResult
deriving DecidableEq

mutual

/-- `Board.dig`, fuel-indexed.  Mirrors the source: add `(row, col)` to
the dug set, look the cell up with Python indexing, return `False` on a
bomb, `True` on a positive count, and otherwise run the nested
neighbour loops. -/
def digF (n : ℕ) (g : Grid) : ℕ → Finset (ℤ × ℤ) → ℤ → ℤ → DigResult
  | 0, _, _, _ => DigResult.fuelOut
  | fuel + 1, dug, row, col =>
    let dug1 := insert (row, col) dug
    match pyCell n g row col with
    | none => DigResult.crash
    | some Cell.star => DigResult.ok dug1 false
    | some Cell.vacant => DigResult.crash
    | some (Cell.num k) =>
      if 0 < k then DigResult.ok dug1 true
      else digListF n g fuel dug1 (neighbors n row col)

/-- The nested neighbour loops of `Board.dig`: skip already dug cells,
recursively dig the rest (discarding the recursive boolean result, as
the source does), and finally return `True`. -/
def digListF (n : ℕ) (g : Grid) : ℕ → Finset (ℤ × ℤ) → List (ℤ × ℤ) → DigResult
  | _, dug, [] => DigResult.ok dug true
  | 0, _, _ :: _ => DigResult.fuelOut
  | fuel + 1, dug, q :: rest =>
    if q ∈ dug then digListF n g fuel dug rest
    else
      match digF n g fuel dug q.1 q.2 with
      | DigResult.ok dug2 _ => digListF n g fuel dug2 rest
      | DigResult.crash => DigResult.crash
      | DigResult.fuelOut => DigResult.fuelOut

end

/-- `Board.dig` with a fuel budget that is proved sufficient below
(`digF_ok_of_fuel`), so `fuelOut` never occurs. -/
def dig (n : ℕ) (g : Grid) (dug : Finset (ℤ × ℤ)) (row col : ℤ) : DigResult :=
  digF n g (10 * n * n + 10) dug row col

/-- The loop condition of `play`, negated: the game is declared won as
soon as `len(board.dug) < dimension_size ** 2 - num_bombs` fails. -/
def winCheck (n : ℕ) (num_bombs : ℤ) (dug : Finset (ℤ × ℤ)) : Bool :=
  decide ((n : ℤ) ^ 2 - num_bombs ≤ (dug.card : ℤ))

/-- The driver loop of `play`, with the player's parsed inputs given as
a list of integer pairs.  Returns `some (true, dug)` when the win
banner would be printed, `some (false, dug)` on a loss, and `none` when
the input list runs out or `dig` raises.  Note the source prints
"Invalid location" for out-of-range input but digs anyway (there is no
`continue`), so no range check appears here either. -/
def play_loop (n : ℕ) (num_bombs : ℤ) (g : Grid) :
    List (ℤ × ℤ) → Finset (ℤ × ℤ) → Option (Bool × Finset (ℤ × ℤ))
  | moves, dug =>
    if winCheck n num_bombs dug then some (true, dug)
    else
      match moves with
      | [] => none
      | (row, col) :: rest =>
        match dig n g dug row col with
        | DigResult.ok dug2 safe =>
          if safe then play_loop n num_bombs g rest dug2
          else some (false, dug2)
        | _ => none

/-- Modelled from the spec: the spec's `RevealOutcome` vocabulary for
reveal results.  The code itself returns only a boolean from `dig`
(its docstring: "return True if successful dig, False if bomb dug"),
so only two of the four values are ever produced; `outcomeOf` is that
documented mapping. -/
inductive RevealOutcome where
  | Revealed : RevealOutcome
  | AlreadyRevealed : RevealOutcome
  | HitHazard : RevealOutcome
  | OutOfBounds : RevealOutcome
deriving DecidableEq

/-- Modelled from the spec: the mapping of the code's boolean `dig`
result onto the spec's outcome vocabulary, per the `dig` docstring
("return True if successful dig, False if bomb dug") and the spec's
error taxonomy. -/
def outcomeOf (b : Bool) : RevealOutcome :=
  if b then RevealOutcome.Revealed else RevealOutcome.HitHazard

/-- No in-range cell is an unassigned `None`: true of every board the
constructor returns, and the condition under which `dig` cannot raise
`TypeError`. -/
def NoVacant (n : ℕ) (g : Grid) : Prop :=
  ∀ p ∈ gridZ n, g p ≠ Cell.vacant

/-- Every in-range non-bomb cell stores exactly the neighbour count the
source computes for it. -/
def WellFormed (n : ℕ) (g : Grid) : Prop :=
  ∀ p ∈ gridZ n, g p ≠ Cell.star →
    g p = Cell.num (get_num_neighboring_bombs n g p.1 p.2)

/-- The dug set is closed under the cascade: every dug in-range
zero-count cell already has its whole clipped neighbourhood dug.  This
holds for every dug set reachable by `dig` calls from a fresh board,
and is what makes a repeated dig a no-op. -/
def CascadeClosed (n : ℕ) (g : Grid) (dug : Finset (ℤ × ℤ)) : Prop :=
  ∀ p ∈ dug, p ∈ gridZ n → g p = Cell.num 0 →
    ∀ q ∈ neighbors n p.1 p.2, q ∈ dug

/-- The number of hazards in the clipped 8-neighbourhood of `p`, written
directly from the spec's words ("the exact count of its 8-neighborhood
(clipped at grid edges) cells with `isHazard = true`"), independently
of the source's loop ranges. -/
def hazard_box_count (n : ℕ) (g : Grid) (p : ℤ × ℤ) : ℕ :=
  ((gridZ n).filter (fun q => q ≠ p ∧ (q.1 - p.1).natAbs ≤ 1 ∧
    (q.2 - p.2).natAbs ≤ 1 ∧ g q = Cell.star)).card

/-- The count of bombs actually stored on the board, over the in-range
cells. -/
def starCount (n : ℕ) (g : Grid) : ℕ :=
  ((gridZ n).filter (fun p => g p = Cell.star)).card

/-- A concrete all-`None` source grid (what `make_new_board` starts
from). -/
def blankGrid : Grid := fun _ => Cell.vacant

/-- A concrete 2×2 example: the bomb layout with a single bomb at
`(1, 1)`, exactly what `make_new_board 2 1` produces when the single
draw is `3`. -/
def exBombGrid : Grid :=
  Function.update blankGrid ((1 : ℤ), (1 : ℤ)) Cell.star

/-- The assigned 2×2 example board: cells `(0,0)`, `(0,1)`, `(1,0)`
hold count 1, and `(1,1)` is the bomb. -/
def exBoard : Grid := assign_values_to_board 2 exBombGrid

/-- The draw stream producing `exBombGrid`. -/
def exDraws : ℕ → ℕ := fun _ => 3

/-- A draw stream that always returns 0. -/
def zeroDraws : ℕ → ℕ := fun _ => 0

/-- The assigned all-zero board of dimension `n` (the board constructed
with `hazardCount = 0`). -/
def zeroBoard (n : ℕ) : Grid := assign_values_to_board n blankGrid

instance (n : ℕ) (g : Grid) : Decidable (NoVacant n g) :=
  inferInstanceAs (Decidable (∀ p ∈ gridZ n, g p ≠ Cell.vacant))

instance (n : ℕ) (g : Grid) : Decidable (WellFormed n g) :=
  inferInstanceAs (Decidable (∀ p ∈ gridZ n, g p ≠ Cell.star →
    g p = Cell.num (get_num_neighboring_bombs n g p.1 p.2)))

instance (n : ℕ) (g : Grid) (dug : Finset (ℤ × ℤ)) :
    Decidable (CascadeClosed n g dug) :=
  inferInstanceAs (Decidable (∀ p ∈ dug, p ∈ gridZ n → g p = Cell.num 0 →
    ∀ q ∈ neighbors n p.1 p.2, q ∈ dug))

theorem mem_gridZ {n : ℕ} {p : ℤ × ℤ} :
    p ∈ gridZ n ↔ 0 ≤ p.1 ∧ p.1 < n ∧ 0 ≤ p.2 ∧ p.2 < n := by
  simp only [gridZ, Finset.mem_product, Finset.mem_Icc]
  omega

theorem gridZ_card (n : ℕ) : (gridZ n).card = n * n := by
  have h : (Finset.Icc (0 : ℤ) ((n : ℤ) - 1)).card = n := by
    rw [Int.card_Icc]
    omega
  simp [gridZ, Finset.card_product, h]

theorem mem_intRange {lo stop a : ℤ} :
    a ∈ intRange lo stop ↔ lo ≤ a ∧ a < stop := by
  simp only [intRange, List.mem_map, List.mem_range]
  constructor
  · rintro ⟨i, hi, rfl⟩
    omega
  · intro h
    exact ⟨(a - lo).toNat, by omega, by omega⟩

theorem intRange_nodup (lo stop : ℤ) : (intRange lo stop).Nodup :=
  (List.nodup_range _).map (fun a b hab => by omega)

theorem intRange_length (lo stop : ℤ) :
    (intRange lo stop).length = (stop - lo).toNat := by
  simp [intRange]

theorem mem_neighbors {n : ℕ} {row col : ℤ} {q : ℤ × ℤ} :
    q ∈ neighbors n row col ↔
      (max 0 (row - 1) ≤ q.1 ∧ q.1 ≤ min ((n : ℤ) - 1) (row + 1)) ∧
      (max 0 (col - 1) ≤ q.2 ∧ q.2 ≤ min ((n : ℤ) - 1) (col + 1)) := by
  cases q with
  | mk a b =>
    simp only [neighbors, List.mem_bind, List.mem_map, mem_intRange, Prod.mk.injEq]
    constructor
    · rintro ⟨r, hr, c, hc, rfl, rfl⟩
      omega
    · intro h
      exact ⟨a, by omega, b, by omega, rfl, rfl⟩

theorem neighbors_mem_grid {n : ℕ} {row col : ℤ} {q : ℤ × ℤ}
    (h : q ∈ neighbors n row col) : q ∈ gridZ n := by
  rw [mem_neighbors] at h
  rw [mem_gridZ]
  omega

theorem neighbors_length_le (n : ℕ) (row col : ℤ) :
    (neighbors n row col).length ≤ 9 := by
  rw [neighbors, List.length_bind]
  have hb : ∀ x ∈ (intRange (max 0 (row - 1)) (min ((n : ℤ) - 1) (row + 1) + 1)).map
      (fun r => ((intRange (max 0 (col - 1)) (min ((n : ℤ) - 1) (col + 1) + 1)).map
        (fun c => (r, c))).length), x ≤ 3 := by
    intro x hx
    simp only [List.mem_map] at hx
    obtain ⟨r, _, rfl⟩ := hx
    rw [List.length_map, intRange_length]
    omega
  calc ((intRange (max 0 (row - 1)) (min ((n : ℤ) - 1) (row + 1) + 1)).map
      (fun r => ((intRange (max 0 (col - 1)) (min ((n : ℤ) - 1) (col + 1) + 1)).map
        (fun c => (r, c))).length)).sum
      ≤ ((intRange (max 0 (row - 1)) (min ((n : ℤ) - 1) (row + 1) + 1)).map
        (fun r => ((intRange (max 0 (col - 1)) (min ((n : ℤ) - 1) (col + 1) + 1)).map
          (fun c => (r, c))).length)).length • 3 := List.sum_le_card_nsmul _ 3 hb
    _ ≤ 9 := by
      rw [List.length_map, intRange_length, smul_eq_mul]
      have : ((min ((n : ℤ) - 1) (row + 1) + 1) - max 0 (row - 1)).toNat ≤ 3 := by omega
      omega

theorem neighbors_nodup (n : ℕ) (row col : ℤ) : (neighbors n row col).Nodup := by
  rw [neighbors, List.nodup_bind]
  constructor
  · intro r _
    exact (intRange_nodup _ _).map (fun c1 c2 h => by
      simpa using congrArg Prod.snd h)
  · refine (intRange_nodup _ _).imp ?_
    intro r1 r2 hne
    intro x hx1 hx2
    simp only [List.mem_map] at hx1 hx2
    obtain ⟨c1, _, rfl⟩ := hx1
    obtain ⟨c2, _, h⟩ := hx2
    exact hne (by simpa using (congrArg Prod.fst h).symm)

theorem pyCell_in_bounds {n : ℕ} (g : Grid) {row col : ℤ}
    (h1 : 0 ≤ row) (h2 : row < n) (h3 : 0 ≤ col) (h4 : col < n) :
    pyCell n g row col = some (g (row, col)) := by
  rw [pyCell, if_pos ⟨by omega, h2, by omega, h4⟩, pyWrap, pyWrap,
    if_neg (by omega), if_neg (by omega)]

theorem mem_coordsList {n : ℕ} {p : ℤ × ℤ} :
    p ∈ coordsList n ↔ p ∈ gridZ n := by
  cases p with
  | mk a b =>
    simp only [coordsList, List.mem_bind, List.mem_map, List.mem_range, mem_gridZ,
      Prod.mk.injEq]
    constructor
    · rintro ⟨r, hr, c, hc, rfl, rfl⟩
      refine ⟨by omega, by omega, by omega, by omega⟩
    · rintro ⟨h1, h2, h3, h4⟩
      exact ⟨a.toNat, by omega, b.toNat, by omega, by omega, by omega⟩

theorem coordsList_nodup (n : ℕ) : (coordsList n).Nodup := by
  rw [coordsList, List.nodup_bind]
  constructor
  · intro r _
    exact (List.nodup_range n).map (fun c1 c2 h => by
      simpa using congrArg Prod.snd h)
  · refine (List.nodup_range n).imp ?_
    intro r1 r2 hne x hx1 hx2
    simp only [List.mem_map] at hx1 hx2
    obtain ⟨c1, _, rfl⟩ := hx1
    obtain ⟨c2, _, h⟩ := hx2
    exact hne (by
      have := congrArg Prod.fst h
      simpa using this.symm)

theorem assignStep_star_iff (n : ℕ) (g : Grid) (p q : ℤ × ℤ) :
    assignStep n g p q = Cell.star ↔ g q = Cell.star := by
  rw [assignStep]
  split
  · exact Iff.rfl
  · rename_i h
    rcases eq_or_ne q p with rfl | hne
    · rw [Function.update_same]
      exact ⟨fun hc => Cell.noConfusion hc, fun hc => absurd hc h⟩
    · rw [Function.update_noteq hne]

theorem assignFold_star_iff (n : ℕ) (l : List (ℤ × ℤ)) (g : Grid) (q : ℤ × ℤ) :
    (l.foldl (assignStep n) g) q = Cell.star ↔ g q = Cell.star := by
  induction l generalizing g with
  | nil => exact Iff.rfl
  | cons a t ih =>
    rw [List.foldl_cons, ih]
    exact assignStep_star_iff n g a q

theorem get_num_congr {n : ℕ} {g g2 : Grid}
    (h : ∀ q, g q = Cell.star ↔ g2 q = Cell.star) (row col : ℤ) :
    get_num_neighboring_bombs n g row col =
      get_num_neighboring_bombs n g2 row col := by
  unfold get_num_neighboring_bombs
  apply List.countP_congr
  intro a _
  simp only [decide_eq_true_eq]
  exact and_congr_right (fun _ => h a)

theorem assignFold_untouched (n : ℕ) (l : List (ℤ × ℤ)) (g : Grid) (q : ℤ × ℤ)
    (hq : q ∉ l) : (l.foldl (assignStep n) g) q = g q := by
  induction l generalizing g with
  | nil => rfl
  | cons a t ih =>
    rw [List.foldl_cons, ih _ (fun h => hq (List.mem_cons_of_mem _ h))]
    rw [assignStep]
    split
    · rfl
    · exact Function.update_noteq
        (fun h => hq (by rw [h]; exact List.mem_cons_self a t)) _ g

theorem assignFold_assigns (n : ℕ) (l : List (ℤ × ℤ)) :
    ∀ (g : Grid) (p : ℤ × ℤ), l.Nodup → p ∈ l → g p ≠ Cell.star →
      (l.foldl (assignStep n) g) p =
        Cell.num (get_num_neighboring_bombs n g p.1 p.2) := by
  induction l with
  | nil => intro g p _ hp; exact absurd hp (List.not_mem_nil p)
  | cons a t ih =>
    intro g p hnd hp hns
    rw [List.foldl_cons]
    rcases List.mem_cons.mp hp with rfl | hpt
    · rw [assignFold_untouched n t _ _ (List.nodup_cons.mp hnd).1]
      rw [assignStep, if_neg hns, Function.update_same]
    · have hstep : ∀ q, assignStep n g a q = Cell.star ↔ g q = Cell.star :=
        assignStep_star_iff n g a
      have hns2 : assignStep n g a p ≠ Cell.star := fun h => hns ((hstep p).mp h)
      rw [ih _ _ (List.nodup_cons.mp hnd).2 hpt hns2]
      rw [get_num_congr hstep]

theorem assign_values_eq {n : ℕ} (g : Grid) {p : ℤ × ℤ} (hp : p ∈ gridZ n)
    (hns : g p ≠ Cell.star) :
    assign_values_to_board n g p =
      Cell.num (get_num_neighboring_bombs n g p.1 p.2) :=
  assignFold_assigns n (coordsList n) g p (coordsList_nodup n)
    (mem_coordsList.mpr hp) hns

theorem assign_values_star_iff (n : ℕ) (g : Grid) (q : ℤ × ℤ) :
    assign_values_to_board n g q = Cell.star ↔ g q = Cell.star :=
  assignFold_star_iff n (coordsList n) g q

theorem assign_values_untouched {n : ℕ} (g : Grid) {p : ℤ × ℤ}
    (hp : p ∉ gridZ n) : assign_values_to_board n g p = g p :=
  assignFold_untouched n (coordsList n) g p (fun h => hp (mem_coordsList.mp h))

theorem get_num_eq_box {n : ℕ} (g : Grid) {p : ℤ × ℤ} (hp : p ∈ gridZ n) :
    get_num_neighboring_bombs n g p.1 p.2 = hazard_box_count n g p := by
  rw [get_num_neighboring_bombs, hazard_box_count, List.countP_eq_length_filter]
  rw [← List.toFinset_card_of_nodup (List.Nodup.filter _ (neighbors_nodup n p.1 p.2))]
  congr 1
  ext q
  rw [List.mem_toFinset, List.mem_filter, Finset.mem_filter]
  rw [mem_gridZ] at hp
  simp only [decide_eq_true_eq, mem_neighbors, mem_gridZ]
  constructor
  · rintro ⟨hbox, hne, hstar⟩
    refine ⟨⟨by omega, by omega, by omega, by omega⟩,
      fun h => hne ⟨congrArg Prod.fst h, congrArg Prod.snd h⟩, by omega, by omega, hstar⟩
  · rintro ⟨hgrid, hne, h1, h2, hstar⟩
    refine ⟨⟨by omega, by omega⟩, fun h => hne ?_, hstar⟩
    cases q
    cases p
    simp only at h
    simp [h.1, h.2]

theorem blankGrid_not_star (q : ℤ × ℤ) : blankGrid q ≠ Cell.star := by
  rw [blankGrid]
  intro h
  cases h

theorem zeroBoard_eq {n : ℕ} {p : ℤ × ℤ} (hp : p ∈ gridZ n) :
    zeroBoard n p = Cell.num 0 := by
  rw [zeroBoard, assign_values_eq blankGrid hp (blankGrid_not_star p)]
  congr 1
  rw [get_num_neighboring_bombs, List.countP_eq_zero]
  intro a _
  simp [blankGrid]

theorem starCount_update {n : ℕ} {g : Grid} {q : ℤ × ℤ} (hq : q ∈ gridZ n)
    (hns : g q ≠ Cell.star) :
    starCount n (Function.update g q Cell.star) = starCount n g + 1 := by
  unfold starCount
  have hset : (gridZ n).filter (fun p => Function.update g q Cell.star p = Cell.star) =
      insert q ((gridZ n).filter (fun p => g p = Cell.star)) := by
    ext r
    simp only [Finset.mem_filter, Finset.mem_insert]
    rcases eq_or_ne r q with rfl | hne
    · simp [Function.update_same, hq]
    · simp [Function.update_noteq hne, hne]
  rw [hset, Finset.card_insert_of_not_mem]
  intro hmem
  exact hns (Finset.mem_filter.mp hmem).2

theorem draw_pos_mem_grid {n : ℕ} {loc : ℕ} (h : loc < n * n) :
    (((loc / n : ℕ) : ℤ), ((loc % n : ℕ) : ℤ)) ∈ gridZ n := by
  have hn : 0 < n := by
    rcases Nat.eq_zero_or_pos n with rfl | h2
    · omega
    · exact h2
  rw [mem_gridZ]
  have h1 : loc / n < n := Nat.div_lt_iff_lt_mul hn |>.mpr (by omega)
  have h2 : loc % n < n := Nat.mod_lt loc hn
  dsimp only
  refine ⟨Int.natCast_nonneg _, by exact_mod_cast h1,
    Int.natCast_nonneg _, by exact_mod_cast h2⟩

theorem plantLoop_zero (n : ℕ) (num_bombs : ℤ) (draws : ℕ → ℕ)
    (idx planted : ℕ) (g : Grid) :
    plantLoop n num_bombs draws 0 idx planted g =
      if (planted : ℤ) < num_bombs then none else some g := rfl

theorem plantLoop_succ (n : ℕ) (num_bombs : ℤ) (draws : ℕ → ℕ)
    (fuel idx planted : ℕ) (g : Grid) :
    plantLoop n num_bombs draws (fuel + 1) idx planted g =
      if (planted : ℤ) < num_bombs then
        (if g (((draws idx / n : ℕ) : ℤ), ((draws idx % n : ℕ) : ℤ)) = Cell.star then
          plantLoop n num_bombs draws fuel (idx + 1) planted g
        else
          plantLoop n num_bombs draws fuel (idx + 1) (planted + 1)
            (Function.update g
              (((draws idx / n : ℕ) : ℤ), ((draws idx % n : ℕ) : ℤ)) Cell.star))
      else some g := rfl

theorem plantLoop_count {n : ℕ} {hc : ℤ} {draws : ℕ → ℕ}
    (hdraws : ∀ i, draws i < n * n) :
    ∀ (fuel : ℕ), ∀ (idx planted : ℕ) (g g2 : Grid),
      starCount n g = planted → (planted : ℤ) ≤ hc →
      plantLoop n hc draws fuel idx planted g = some g2 →
      starCount n g2 = hc.toNat := by
  intro fuel
  induction fuel with
  | zero =>
    intro idx planted g g2 hcount hle h
    rw [plantLoop_zero] at h
    split at h
    · exact absurd h (by intro hh; cases hh)
    · rename_i hexit
      cases h
      omega
  | succ fuel ih =>
    intro idx planted g g2 hcount hle h
    rw [plantLoop_succ] at h
    split at h
    · rename_i hlt
      split at h
      · exact ih (idx + 1) planted g g2 hcount hle h
      · rename_i hnotstar
        refine ih (idx + 1) (planted + 1) _ g2 ?_ (by omega) h
        rw [starCount_update (draw_pos_mem_grid (hdraws idx)) hnotstar, hcount]
    · rename_i hexit
      cases h
      omega

theorem make_new_board_count {n : ℕ} {hc : ℤ} {draws : ℕ → ℕ} {fuel : ℕ} {g2 : Grid}
    (hdraws : ∀ i, draws i < n * n) (hpos : 0 ≤ hc)
    (h : make_new_board n hc draws fuel = some g2) :
    starCount n g2 = hc.toNat := by
  refine plantLoop_count hdraws fuel 0 0 _ g2 ?_ (by omega) h
  unfold starCount
  rw [Finset.card_eq_zero, Finset.filter_eq_empty_iff]
  intro p _
  exact blankGrid_not_star p

theorem assign_starCount (n : ℕ) (g : Grid) :
    starCount n (assign_values_to_board n g) = starCount n g := by
  unfold starCount
  congr 1
  apply Finset.filter_congr
  intro p _
  exact assign_values_star_iff n g p

/-- On the 1×1 board with one bomb already planted at the only cell,
every further draw collides, so the planting loop never finishes. -/
theorem plantLoop_stuck (fuel : ℕ) :
    ∀ (idx : ℕ) (g : Grid), g ((0 : ℤ), (0 : ℤ)) = Cell.star →
      plantLoop 1 2 zeroDraws fuel idx 1 g = none := by
  induction fuel with
  | zero =>
    intro idx g hg
    rw [plantLoop_zero, if_pos (by omega)]
  | succ fuel ih =>
    intro idx g hg
    rw [plantLoop_succ, if_pos (by omega), if_pos (by simpa [zeroDraws] using hg)]
    exact ih (idx + 1) g hg

theorem make_new_board_stuck (fuel : ℕ) :
    make_new_board 1 2 zeroDraws fuel = none := by
  rw [make_new_board]
  cases fuel with
  | zero => rw [plantLoop_zero, if_pos (by omega)]
  | succ fuel =>
    rw [plantLoop_succ, if_pos (by omega), if_neg (by simp [zeroDraws, blankGrid])]
    exact plantLoop_stuck fuel 1 _ (by simp [zeroDraws, Function.update_same])

theorem digF_zero (n : ℕ) (g : Grid) (dug : Finset (ℤ × ℤ)) (row col : ℤ) :
    digF n g 0 dug row col = DigResult.fuelOut := rfl

theorem digF_succ (n : ℕ) (g : Grid) (fuel : ℕ) (dug : Finset (ℤ × ℤ))
    (row col : ℤ) :
    digF n g (fuel + 1) dug row col =
      match pyCell n g row col with
      | none => DigResult.crash
      | some Cell.star => DigResult.ok (insert (row, col) dug) false
      | some Cell.vacant => DigResult.crash
      | some (Cell.num k) =>
        if 0 < k then DigResult.ok (insert (row, col) dug) true
        else digListF n g fuel (insert (row, col) dug) (neighbors n row col) := rfl

theorem digListF_nil (n : ℕ) (g : Grid) (fuel : ℕ) (dug : Finset (ℤ × ℤ)) :
    digListF n g fuel dug [] = DigResult.ok dug true := by
  cases fuel <;> rfl

theorem digListF_zero_cons (n : ℕ) (g : Grid) (dug : Finset (ℤ × ℤ))
    (q : ℤ × ℤ) (rest : List (ℤ × ℤ)) :
    digListF n g 0 dug (q :: rest) = DigResult.fuelOut := rfl

theorem digListF_succ_cons (n : ℕ) (g : Grid) (fuel : ℕ) (dug : Finset (ℤ × ℤ))
    (q : ℤ × ℤ) (rest : List (ℤ × ℤ)) :
    digListF n g (fuel + 1) dug (q :: rest) =
      if q ∈ dug then digListF n g fuel dug rest
      else
        match digF n g fuel dug q.1 q.2 with
        | DigResult.ok dug2 _ => digListF n g fuel dug2 rest
        | DigResult.crash => DigResult.crash
        | DigResult.fuelOut => DigResult.fuelOut := rfl

theorem dig_mono (n : ℕ) (g : Grid) :
    ∀ fuel : ℕ,
      (∀ dug row col dug2 b, digF n g fuel dug row col = DigResult.ok dug2 b →
        insert (row, col) dug ⊆ dug2) ∧
      (∀ dug l dug2 b, digListF n g fuel dug l = DigResult.ok dug2 b →
        dug ⊆ dug2 ∧ b = true) := by
  intro fuel
  induction fuel with
  | zero =>
    constructor
    · intro dug row col dug2 b h
      rw [digF_zero] at h
      cases h
    · intro dug l dug2 b h
      cases l with
      | nil =>
        rw [digListF_nil] at h
        cases h
        exact ⟨Finset.Subset.refl dug, rfl⟩
      | cons q rest =>
        rw [digListF_zero_cons] at h
        cases h
  | succ fuel ih =>
    constructor
    · intro dug row col dug2 b h
      rw [digF_succ] at h
      cases hcell : pyCell n g row col with
      | none =>
        rw [hcell] at h
        cases h
      | some c =>
        rw [hcell] at h
        cases c with
        | star =>
          cases h
          exact Finset.Subset.refl _
        | vacant => cases h
        | num k =>
          dsimp only at h
          by_cases hk : 0 < k
          · rw [if_pos hk] at h
            cases h
            exact Finset.Subset.refl _
          · rw [if_neg hk] at h
            exact (ih.2 _ _ _ _ h).1
    · intro dug l dug2 b h
      cases l with
      | nil =>
        rw [digListF_nil] at h
        cases h
        exact ⟨Finset.Subset.refl dug, rfl⟩
      | cons q rest =>
        rw [digListF_succ_cons] at h
        by_cases hq : q ∈ dug
        · rw [if_pos hq] at h
          exact ih.2 _ _ _ _ h
        · rw [if_neg hq] at h
          cases hdig : digF n g fuel dug q.1 q.2 with
          | ok dug1 b1 =>
            rw [hdig] at h
            have h1 := ih.1 _ _ _ _ _ hdig
            have h2 := ih.2 _ _ _ _ h
            refine ⟨Finset.Subset.trans ?_ h2.1, h2.2⟩
            exact Finset.Subset.trans (Finset.subset_insert _ dug) h1
          | crash =>
            rw [hdig] at h
            cases h
          | fuelOut =>
            rw [hdig] at h
            cases h

theorem pyCell_grid_cell {n : ℕ} {g : Grid} {row col : ℤ} {c : Cell}
    (hg : (row, col) ∈ gridZ n) (hcell : pyCell n g row col = some c) :
    g (row, col) = c := by
  have hb := mem_gridZ.mp hg
  rw [pyCell_in_bounds g hb.1 hb.2.1 hb.2.2.1 hb.2.2.2] at hcell
  injection hcell

theorem sdiff_insert_card {n : ℕ} {dug : Finset (ℤ × ℤ)} {q : ℤ × ℤ}
    (hq : q ∈ gridZ n) (hnd : q ∉ dug) :
    (gridZ n \ insert q dug).card + 1 = (gridZ n \ dug).card := by
  have hset : gridZ n \ insert q dug = (gridZ n \ dug).erase q := by
    ext x
    simp only [Finset.mem_sdiff, Finset.mem_insert, Finset.mem_erase]
    tauto
  rw [hset, Finset.card_erase_of_mem (Finset.mem_sdiff.mpr ⟨hq, hnd⟩)]
  have hpos : 0 < (gridZ n \ dug).card :=
    Finset.card_pos.mpr ⟨q, Finset.mem_sdiff.mpr ⟨hq, hnd⟩⟩
  omega

theorem dig_fuel (n : ℕ) (g : Grid) (hnv : NoVacant n g) :
    ∀ fuel : ℕ,
      (∀ (dug : Finset (ℤ × ℤ)) (row col : ℤ), 0 ≤ row → row < n → 0 ≤ col → col < n →
        10 * (gridZ n \ insert (row, col) dug).card + 10 ≤ fuel →
        ∃ dug2 b, digF n g fuel dug row col = DigResult.ok dug2 b) ∧
      (∀ (dug : Finset (ℤ × ℤ)) (l : List (ℤ × ℤ)), (∀ p ∈ l, p ∈ gridZ n) →
        10 * (gridZ n \ dug).card + l.length ≤ fuel →
        ∃ dug2, digListF n g fuel dug l = DigResult.ok dug2 true) := by
  intro fuel
  induction fuel with
  | zero =>
    constructor
    · intro dug row col _ _ _ _ hf
      omega
    · intro dug l hl hf
      cases l with
      | nil => exact ⟨dug, digListF_nil n g 0 dug⟩
      | cons q rest =>
        rw [List.length_cons] at hf
        omega
  | succ fuel ih =>
    constructor
    · intro dug row col h1 h2 h3 h4 hf
      have hgrid : (row, col) ∈ gridZ n := mem_gridZ.mpr ⟨h1, h2, h3, h4⟩
      rw [digF_succ, pyCell_in_bounds g h1 h2 h3 h4]
      cases hc : g (row, col) with
      | star => exact ⟨_, _, rfl⟩
      | vacant => exact absurd hc (hnv _ hgrid)
      | num k =>
        dsimp only
        by_cases hk : 0 < k
        · rw [if_pos hk]
          exact ⟨_, _, rfl⟩
        · rw [if_neg hk]
          have hlen := neighbors_length_le n row col
          obtain ⟨dug2, hd⟩ := ih.2 (insert (row, col) dug) (neighbors n row col)
            (fun p hp => neighbors_mem_grid hp) (by omega)
          exact ⟨dug2, true, hd⟩
    · intro dug l hl hf
      cases l with
      | nil => exact ⟨dug, digListF_nil n g _ dug⟩
      | cons q rest =>
        rw [List.length_cons] at hf
        rw [digListF_succ_cons]
        by_cases hq : q ∈ dug
        · rw [if_pos hq]
          exact ih.2 dug rest (fun p hp => hl p (List.mem_cons_of_mem q hp)) (by omega)
        · rw [if_neg hq]
          have hqg : q ∈ gridZ n := hl q (List.mem_cons_self q rest)
          have hb := mem_gridZ.mp hqg
          have hcard := sdiff_insert_card
            (show ((q.1, q.2) : ℤ × ℤ) ∈ gridZ n from hqg)
            (show ((q.1, q.2) : ℤ × ℤ) ∉ dug from hq)
          obtain ⟨dug2, b2, hdig⟩ :=
            ih.1 dug q.1 q.2 hb.1 hb.2.1 hb.2.2.1 hb.2.2.2 (by omega)
          rw [hdig]
          dsimp only
          have hmono := (dig_mono n g fuel).1 _ _ _ _ _ hdig
          have hcard2 : (gridZ n \ dug2).card ≤ (gridZ n \ insert (q.1, q.2) dug).card :=
            Finset.card_le_card
              (Finset.sdiff_subset_sdiff (Finset.Subset.refl _) hmono)
          exact ih.2 dug2 rest (fun p hp => hl p (List.mem_cons_of_mem q hp)) (by omega)

theorem wf_zero_no_star {n : ℕ} {g : Grid} (hwf : WellFormed n g) {p : ℤ × ℤ}
    (hp : p ∈ gridZ n) (h0 : g p = Cell.num 0) :
    ∀ q ∈ neighbors n p.1 p.2, g q ≠ Cell.star := by
  have hns : g p ≠ Cell.star := by
    rw [h0]
    intro h
    cases h
  have heq := hwf p hp hns
  rw [h0] at heq
  have hcount : get_num_neighboring_bombs n g p.1 p.2 = 0 := by
    injection heq with h2
    exact h2.symm
  rw [get_num_neighboring_bombs, List.countP_eq_zero] at hcount
  intro q hq hstar
  rcases eq_or_ne q p with rfl | hne
  · rw [h0] at hstar
    cases hstar
  · refine hcount q hq ?_
    simp only [decide_eq_true_eq]
    refine ⟨fun hh => hne ?_, hstar⟩
    cases q
    cases p
    simp only at hh
    simp [hh.1, hh.2]

theorem dig_no_star (n : ℕ) (g : Grid) (hwf : WellFormed n g) :
    ∀ fuel : ℕ,
      (∀ (dug : Finset (ℤ × ℤ)) (row col : ℤ) dug2 b,
        digF n g fuel dug row col = DigResult.ok dug2 b →
        (row, col) ∈ gridZ n → g (row, col) ≠ Cell.star →
        ∀ q ∈ dug2, q ∈ dug ∨ (q ∈ gridZ n ∧ g q ≠ Cell.star)) ∧
      (∀ (dug : Finset (ℤ × ℤ)) (l : List (ℤ × ℤ)) dug2 b,
        digListF n g fuel dug l = DigResult.ok dug2 b →
        (∀ p ∈ l, p ∈ gridZ n ∧ g p ≠ Cell.star) →
        ∀ q ∈ dug2, q ∈ dug ∨ (q ∈ gridZ n ∧ g q ≠ Cell.star)) := by
  intro fuel
  induction fuel with
  | zero =>
    constructor
    · intro dug row col dug2 b h
      rw [digF_zero] at h
      cases h
    · intro dug l dug2 b h hl
      cases l with
      | nil =>
        rw [digListF_nil] at h
        cases h
        intro q hq
        exact Or.inl hq
      | cons q rest =>
        rw [digListF_zero_cons] at h
        cases h
  | succ fuel ih =>
    constructor
    · intro dug row col dug2 b h hgrid hns
      have hb := mem_gridZ.mp hgrid
      rw [digF_succ, pyCell_in_bounds g hb.1 hb.2.1 hb.2.2.1 hb.2.2.2] at h
      cases hc : g (row, col) with
      | star => exact absurd hc hns
      | vacant =>
        rw [hc] at h
        cases h
      | num k =>
        rw [hc] at h
        dsimp only at h
        by_cases hk : 0 < k
        · rw [if_pos hk] at h
          cases h
          intro q hq
          rcases Finset.mem_insert.mp hq with rfl | hq2
          · exact Or.inr ⟨hgrid, hns⟩
          · exact Or.inl hq2
        · rw [if_neg hk] at h
          have hze : g (row, col) = Cell.num 0 := by
            rw [hc]
            congr 1
            omega
          have hnbrs : ∀ p ∈ neighbors n row col, p ∈ gridZ n ∧ g p ≠ Cell.star :=
            fun p hp => ⟨neighbors_mem_grid hp, wf_zero_no_star hwf hgrid hze p hp⟩
          intro q hq
          rcases ih.2 _ _ _ _ h hnbrs q hq with hin | hgood
          · rcases Finset.mem_insert.mp hin with rfl | hin2
            · exact Or.inr ⟨hgrid, hns⟩
            · exact Or.inl hin2
          · exact Or.inr hgood
    · intro dug l dug2 b h hl
      cases l with
      | nil =>
        rw [digListF_nil] at h
        cases h
        intro q hq
        exact Or.inl hq
      | cons q0 rest =>
        rw [digListF_succ_cons] at h
        by_cases hq0 : q0 ∈ dug
        · rw [if_pos hq0] at h
          exact ih.2 _ _ _ _ h (fun p hp => hl p (List.mem_cons_of_mem q0 hp))
        · rw [if_neg hq0] at h
          cases hdig : digF n g fuel dug q0.1 q0.2 with
          | ok dugA bA =>
            rw [hdig] at h
            dsimp only at h
            have hq0m := hl q0 (List.mem_cons_self q0 rest)
            have hstep := ih.1 _ _ _ _ _ hdig hq0m.1 hq0m.2
            intro q hq
            rcases ih.2 _ _ _ _ h
              (fun p hp => hl p (List.mem_cons_of_mem q0 hp)) q hq with hin | hgood
            · rcases hstep q hin with h1 | h2
              · exact Or.inl h1
              · exact Or.inr h2
            · exact Or.inr hgood
          | crash =>
            rw [hdig] at h
            cases h
          | fuelOut =>
            rw [hdig] at h
            cases h

theorem dig_closed (n : ℕ) (g : Grid) :
    ∀ fuel : ℕ,
      (∀ (S : Set (ℤ × ℤ)) (dug : Finset (ℤ × ℤ)) (row col : ℤ) dug2 b,
        (∀ p ∈ dug, p ∈ gridZ n → g p = Cell.num 0 →
          ∀ q ∈ neighbors n p.1 p.2, q ∈ dug ∨ q ∈ S ∨ q = (row, col)) →
        digF n g fuel dug row col = DigResult.ok dug2 b →
        ∀ p ∈ dug2, p ∈ gridZ n → g p = Cell.num 0 →
          ∀ q ∈ neighbors n p.1 p.2, q ∈ dug2 ∨ q ∈ S) ∧
      (∀ (S : Set (ℤ × ℤ)) (dug : Finset (ℤ × ℤ)) (l : List (ℤ × ℤ)) dug2 b,
        (∀ p ∈ dug, p ∈ gridZ n → g p = Cell.num 0 →
          ∀ q ∈ neighbors n p.1 p.2, q ∈ dug ∨ q ∈ S ∨ q ∈ l) →
        digListF n g fuel dug l = DigResult.ok dug2 b →
        ∀ p ∈ dug2, p ∈ gridZ n → g p = Cell.num 0 →
          ∀ q ∈ neighbors n p.1 p.2, q ∈ dug2 ∨ q ∈ S) := by
  intro fuel
  induction fuel with
  | zero =>
    constructor
    · intro S dug row col dug2 b _ h
      rw [digF_zero] at h
      cases h
    · intro S dug l dug2 b hyp h
      cases l with
      | nil =>
        rw [digListF_nil] at h
        cases h
        intro p hp hpg hp0 q hq
        rcases hyp p hp hpg hp0 q hq with h1 | h2 | h3
        · exact Or.inl h1
        · exact Or.inr h2
        · exact absurd h3 (List.not_mem_nil q)
      | cons q0 rest =>
        rw [digListF_zero_cons] at h
        cases h
  | succ fuel ih =>
    constructor
    · intro S dug row col dug2 b hyp h
      cases hcell : pyCell n g row col with
      | none =>
        rw [digF_succ, hcell] at h
        cases h
      | some c =>
        rw [digF_succ, hcell] at h
        cases c with
        | star =>
          cases h
          intro p hp hpg hp0 q hq
          rcases Finset.mem_insert.mp hp with rfl | hp2
          · have := pyCell_grid_cell hpg hcell
            rw [hp0] at this
            cases this
          · rcases hyp p hp2 hpg hp0 q hq with h1 | h2 | h3
            · exact Or.inl (Finset.mem_insert_of_mem h1)
            · exact Or.inr h2
            · exact Or.inl (h3 ▸ Finset.mem_insert_self _ _)
        | vacant => cases h
        | num k =>
          dsimp only at h
          by_cases hk : 0 < k
          · rw [if_pos hk] at h
            cases h
            intro p hp hpg hp0 q hq
            rcases Finset.mem_insert.mp hp with rfl | hp2
            · have := pyCell_grid_cell hpg hcell
              rw [hp0] at this
              injection this with hk0
              omega
            · rcases hyp p hp2 hpg hp0 q hq with h1 | h2 | h3
              · exact Or.inl (Finset.mem_insert_of_mem h1)
              · exact Or.inr h2
              · exact Or.inl (h3 ▸ Finset.mem_insert_self _ _)
          · rw [if_neg hk] at h
            refine ih.2 S (insert (row, col) dug) (neighbors n row col) dug2 b ?_ h
            intro p hp hpg hp0 q hq
            rcases Finset.mem_insert.mp hp with rfl | hp2
            · exact Or.inr (Or.inr hq)
            · rcases hyp p hp2 hpg hp0 q hq with h1 | h2 | h3
              · exact Or.inl (Finset.mem_insert_of_mem h1)
              · exact Or.inr (Or.inl h2)
              · exact Or.inl (h3 ▸ Finset.mem_insert_self _ _)
    · intro S dug l dug2 b hyp h
      cases l with
      | nil =>
        rw [digListF_nil] at h
        cases h
        intro p hp hpg hp0 q hq
        rcases hyp p hp hpg hp0 q hq with h1 | h2 | h3
        · exact Or.inl h1
        · exact Or.inr h2
        · exact absurd h3 (List.not_mem_nil q)
      | cons q0 rest =>
        rw [digListF_succ_cons] at h
        by_cases hq0 : q0 ∈ dug
        · rw [if_pos hq0] at h
          refine ih.2 S dug rest dug2 b ?_ h
          intro p hp hpg hp0 q hq
          rcases hyp p hp hpg hp0 q hq with h1 | h2 | h3
          · exact Or.inl h1
          · exact Or.inr (Or.inl h2)
          · rcases List.mem_cons.mp h3 with rfl | h4
            · exact Or.inl hq0
            · exact Or.inr (Or.inr h4)
        · rw [if_neg hq0] at h
          cases hdig : digF n g fuel dug q0.1 q0.2 with
          | ok dugA bA =>
            rw [hdig] at h
            dsimp only at h
            have hmid := ih.1 (S ∪ {x | x ∈ rest}) dug q0.1 q0.2 dugA bA ?hyp1 hdig
            case hyp1 =>
              intro p hp hpg hp0 q hq
              rcases hyp p hp hpg hp0 q hq with h1 | h2 | h3
              · exact Or.inl h1
              · exact Or.inr (Or.inl (Or.inl h2))
              · rcases List.mem_cons.mp h3 with rfl | h4
                · exact Or.inr (Or.inr rfl)
                · exact Or.inr (Or.inl (Or.inr h4))
            refine ih.2 S dugA rest dug2 b ?_ h
            intro p hp hpg hp0 q hq
            rcases hmid p hp hpg hp0 q hq with h1 | h2
            · exact Or.inl h1
            · rcases h2 with h3 | h4
              · exact Or.inr (Or.inl h3)
              · exact Or.inr (Or.inr h4)
          | crash =>
            rw [hdig] at h
            cases h
          | fuelOut =>
            rw [hdig] at h
            cases h

theorem digListF_skip_all (n : ℕ) (g : Grid) :
    ∀ (l : List (ℤ × ℤ)) (fuel : ℕ) (dug : Finset (ℤ × ℤ)),
      (∀ q ∈ l, q ∈ dug) → l.length ≤ fuel →
      digListF n g fuel dug l = DigResult.ok dug true := by
  intro l
  induction l with
  | nil => intro fuel dug _ _; exact digListF_nil n g fuel dug
  | cons q rest ih =>
    intro fuel dug hmem hlen
    rw [List.length_cons] at hlen
    cases fuel with
    | zero => omega
    | succ f =>
      rw [digListF_succ_cons, if_pos (hmem q (List.mem_cons_self q rest))]
      exact ih f dug (fun x hx => hmem x (List.mem_cons_of_mem q hx)) (by omega)

theorem digF_false_iff {n : ℕ} {g : Grid} {fuel : ℕ} {dug : Finset (ℤ × ℤ)}
    {row col : ℤ} {dug2 : Finset (ℤ × ℤ)} {b : Bool}
    (h1 : 0 ≤ row) (h2 : row < n) (h3 : 0 ≤ col) (h4 : col < n)
    (h : digF n g fuel dug row col = DigResult.ok dug2 b) :
    (b = false ↔ g (row, col) = Cell.star) := by
  cases fuel with
  | zero =>
    rw [digF_zero] at h
    cases h
  | succ fuel =>
    rw [digF_succ, pyCell_in_bounds g h1 h2 h3 h4] at h
    cases hc : g (row, col) with
    | star =>
      rw [hc] at h
      cases h
      exact ⟨fun _ => rfl, fun _ => rfl⟩
    | vacant =>
      rw [hc] at h
      cases h
    | num k =>
      rw [hc] at h
      dsimp only at h
      by_cases hk : 0 < k
      · rw [if_pos hk] at h
        cases h
        exact ⟨fun hb => Bool.noConfusion hb, fun hs => Cell.noConfusion hs⟩
      · rw [if_neg hk] at h
        have := ((dig_mono n g fuel).2 _ _ _ _ h).2
        subst this
        exact ⟨fun hb => Bool.noConfusion hb, fun hs => Cell.noConfusion hs⟩

theorem wf_no_vacant {n : ℕ} {g : Grid} (hwf : WellFormed n g) : NoVacant n g := by
  intro p hp hv
  by_cases hs : g p = Cell.star
  · rw [hs] at hv
    cases hv
  · have := hwf p hp hs
    rw [hv] at this
    cases this

theorem dig_ok {n : ℕ} {g : Grid} (hnv : NoVacant n g) (dug : Finset (ℤ × ℤ))
    {row col : ℤ} (h1 : 0 ≤ row) (h2 : row < n) (h3 : 0 ≤ col) (h4 : col < n) :
    ∃ dug2 b, dig n g dug row col = DigResult.ok dug2 b ∧
      insert (row, col) dug ⊆ dug2 := by
  have hm : (gridZ n \ insert (row, col) dug).card ≤ n * n := by
    calc (gridZ n \ insert (row, col) dug).card
        ≤ (gridZ n).card := Finset.card_le_card (Finset.sdiff_subset)
      _ = n * n := gridZ_card n
  obtain ⟨dug2, b, hd⟩ := (dig_fuel n g hnv (10 * n * n + 10)).1 dug row col
    h1 h2 h3 h4 (by rw [Nat.mul_assoc]; omega)
  exact ⟨dug2, b, hd, (dig_mono n g _).1 _ _ _ _ _ hd⟩

/-- Any in-range cell is reachable from any starting in-range cell
through a chain of clipped neighbourhoods, so a dug set that is closed
under taking the neighbourhood of its in-range members swallows the
whole grid. -/
theorem grid_reach {n : ℕ} {d : Finset (ℤ × ℤ)} {p0 : ℤ × ℤ}
    (hp0 : p0 ∈ gridZ n) (hd0 : p0 ∈ d)
    (hstep : ∀ p ∈ d, p ∈ gridZ n → ∀ q ∈ neighbors n p.1 p.2, q ∈ d) :
    ∀ q ∈ gridZ n, q ∈ d := by
  have key : ∀ k : ℕ, ∀ q ∈ gridZ n,
      (q.1 - p0.1).natAbs + (q.2 - p0.2).natAbs ≤ k → q ∈ d := by
    intro k
    induction k with
    | zero =>
      intro q hq hdist
      have h1 : q.1 = p0.1 := by omega
      have h2 : q.2 = p0.2 := by omega
      have : q = p0 := by
        cases q
        cases p0
        simp only at h1 h2
        simp [h1, h2]
      rw [this]
      exact hd0
    | succ k ih =>
      intro q hq hdist
      by_cases hle : (q.1 - p0.1).natAbs + (q.2 - p0.2).natAbs ≤ k
      · exact ih q hq hle
      · have hgq := mem_gridZ.mp hq
        have hg0 := mem_gridZ.mp hp0
        refine hstep ((q.1 - (if p0.1 < q.1 then 1 else if q.1 < p0.1 then -1 else 0),
            q.2 - (if p0.2 < q.2 then 1 else if q.2 < p0.2 then -1 else 0)) : ℤ × ℤ)
          (ih _ ?_ ?_) ?_ q ?_
        · rw [mem_gridZ]
          dsimp only
          split_ifs <;> (constructor <;> omega)
        · dsimp only
          split_ifs <;> omega
        · rw [mem_gridZ]
          dsimp only
          split_ifs <;> (constructor <;> omega)
        · rw [mem_neighbors]
          dsimp only
          split_ifs <;> (constructor <;> constructor <;> omega)
  intro q hq
  exact key ((q.1 - p0.1).natAbs + (q.2 - p0.2).natAbs) q hq le_rfl

/-- Claim C8 (amended): the code's win condition is only the count
comparison `dimension² - hazardCount ≤ |dug|` (the `safe` flag, handled
separately by `play`, is what excludes a revealed hazard).  When every
revealed coordinate is in range and not a hazard — as is the case
whenever only in-range cells were dug — that count check is true
exactly when every non-hazard cell is revealed.  (As stated the claim
fails: out-of-range dug pairs inflate the count, see the
counterexample.) -/
theorem c8_win_check_equiv {n : ℕ} {hc : ℕ} {bombs dug : Finset (ℤ × ℤ)}
    (hb : bombs ⊆ gridZ n) (hbc : bombs.card = hc) (hd : dug ⊆ gridZ n)
    (hdis : ∀ p ∈ dug, p ∉ bombs) :
    (winCheck n (hc : ℤ) dug = true ↔ ∀ p ∈ gridZ n, p ∉ bombs → p ∈ dug) := by
  have hsub : dug ⊆ gridZ n \ bombs :=
    fun p hp => Finset.mem_sdiff.mpr ⟨hd hp, hdis p hp⟩
  have hcard : (gridZ n \ bombs).card = n * n - hc := by
    rw [Finset.card_sdiff hb, gridZ_card, hbc]
  have hhc : hc ≤ n * n := by
    calc hc = bombs.card := hbc.symm
      _ ≤ (gridZ n).card := Finset.card_le_card hb
      _ = n * n := gridZ_card n
  rw [winCheck, decide_eq_true_eq, pow_two]
  constructor
  · intro h p hp hpb
    have hle : (gridZ n \ bombs).card ≤ dug.card := by
      push_cast at h
      omega
    have heq : dug = gridZ n \ bombs := Finset.eq_of_subset_of_card_le hsub hle
    rw [heq]
    exact Finset.mem_sdiff.mpr ⟨hp, hpb⟩
  · intro h
    have hsup : gridZ n \ bombs ⊆ dug := fun p hp =>
      h p (Finset.mem_sdiff.mp hp).1 (Finset.mem_sdiff.mp hp).2
    have hle := Finset.card_le_card hsup
    omega

/-- Claim C1: the claim says an out-of-range `reveal` returns
`OutOfBounds` and mutates nothing.  The code has no such path: `play`
prints "Invalid location. Try again" but digs anyway (there is no
`continue`), and `dig` has no range check.  On the constructed 2×2
board with the bomb at `(1,1)`, digging `(-1, 0)` wraps to row `1`
(Python negative indexing), adds `(-1, 0)` to the dug set — a mutation
— and returns `True` (the `Revealed` outcome); digging `(2, 0)` raises
`IndexError` instead of returning `OutOfBounds`. -/
theorem c1_out_of_bounds_dig_mutates :
    dig 2 exBoard ∅ (-1) 0 = DigResult.ok {((-1 : ℤ), (0 : ℤ))} true ∧
    ({((-1 : ℤ), (0 : ℤ))} : Finset (ℤ × ℤ)) ≠ ∅ ∧
    outcomeOf true = RevealOutcome.Revealed ∧
    dig 2 exBoard ∅ 2 0 = DigResult.crash :=
  ⟨by decide, by decide, rfl, by decide⟩

/-- Claim C2 (counterexample): re-revealing an already revealed cell
does not return a distinct `AlreadyRevealed` value.  On the 2×2 board
with the bomb at `(1,1)`, the first dig of `(1,1)` returns `False`
(`HitHazard`), and so does the second — the boolean result type of
`dig` cannot express `AlreadyRevealed` at all. -/
theorem c2_counterexample :
    dig 2 exBoard ∅ 1 1 = DigResult.ok {((1 : ℤ), (1 : ℤ))} false ∧
    dig 2 exBoard {((1 : ℤ), (1 : ℤ))} 1 1 =
      DigResult.ok {((1 : ℤ), (1 : ℤ))} false ∧
    outcomeOf false = RevealOutcome.HitHazard ∧
    RevealOutcome.HitHazard ≠ RevealOutcome.AlreadyRevealed :=
  ⟨by decide, by decide, rfl, by decide⟩

/-- Claim C2 (amended): a second dig of an already revealed in-range
cell changes no state and performs no cascade — in any dug-set
satisfying the cascade-closure invariant maintained by `dig` — but the
returned value is the cell's ordinary outcome (`True`/`Revealed` for a
non-hazard cell, `False`/`HitHazard` for a hazard), not a distinct
`AlreadyRevealed` value. -/
theorem c2_second_reveal_noop (n : ℕ) (g : Grid) (dug : Finset (ℤ × ℤ))
    (row col : ℤ) (hmem : (row, col) ∈ dug)
    (h1 : 0 ≤ row) (h2 : row < n) (h3 : 0 ≤ col) (h4 : col < n)
    (hcl : CascadeClosed n g dug) (hnv : g (row, col) ≠ Cell.vacant) :
    (g (row, col) = Cell.star → dig n g dug row col = DigResult.ok dug false) ∧
    (g (row, col) ≠ Cell.star → dig n g dug row col = DigResult.ok dug true) := by
  have hins : insert ((row : ℤ), (col : ℤ)) dug = dug := Finset.insert_eq_self.mpr hmem
  have hfuel : (10 * n * n + 10) = (10 * n * n + 9) + 1 := by omega
  constructor
  · intro hstar
    rw [dig, hfuel, digF_succ, pyCell_in_bounds g h1 h2 h3 h4, hstar]
    dsimp only
    rw [hins]
  · intro hns
    cases hc : g (row, col) with
    | star => exact absurd hc hns
    | vacant => exact absurd hc hnv
    | num k =>
      rw [dig, hfuel, digF_succ, pyCell_in_bounds g h1 h2 h3 h4, hc]
      dsimp only
      by_cases hk : 0 < k
      · rw [if_pos hk, hins]
      · rw [if_neg hk, hins]
        have hze : g (row, col) = Cell.num 0 := by
          rw [hc]
          congr 1
          omega
        refine digListF_skip_all n g (neighbors n row col) (10 * n * n + 9) dug
          (hcl (row, col) hmem (mem_gridZ.mpr ⟨h1, h2, h3, h4⟩) hze) ?_
        calc (neighbors n row col).length ≤ 9 := neighbors_length_le n row col
          _ ≤ 10 * n * n + 9 := by omega

theorem c2_second_reveal_noop_witness :
    (((0 : ℤ), (0 : ℤ)) ∈ ({((0 : ℤ), (0 : ℤ))} : Finset (ℤ × ℤ)) ∧
      exBoard ((0 : ℤ), (0 : ℤ)) ≠ Cell.star) ∧
    dig 2 exBoard {((0 : ℤ), (0 : ℤ))} 0 0 =
      DigResult.ok {((0 : ℤ), (0 : ℤ))} true :=
  ⟨⟨by decide, by decide⟩,
    (c2_second_reveal_noop 2 exBoard {((0 : ℤ), (0 : ℤ))} 0 0 (by decide)
      (by decide) (by decide) (by decide) (by decide) (by decide)
      (by decide)).2 (by decide)⟩

/-- Claim C3: the claim says invalid `(dimension, hazardCount)` makes
construction fail with `InvalidConfiguration`.  The code performs no
validation at all: with `hazardCount = -1` (invalid) construction
succeeds at once and hands the caller a fully usable hazard-free
board; with `hazardCount = dimension² = 1` (invalid) it succeeds with
an all-hazard board; and with `hazardCount = 2 > dimension² = 1` the
planting loop retries forever — it never returns, for any iteration
budget — rather than reporting an error. -/
theorem c3_construction_no_validation :
    (Board.init 2 (-1) zeroDraws 0 = some ⟨2, -1, zeroBoard 2, ∅⟩ ∧
      starCount 2 (zeroBoard 2) = 0) ∧
    (Board.init 1 1 zeroDraws 1 =
      some ⟨1, 1, assign_values_to_board 1
        (Function.update blankGrid ((0 : ℤ), (0 : ℤ)) Cell.star), ∅⟩) ∧
    (∀ fuel : ℕ, make_new_board 1 2 zeroDraws fuel = none) :=
  ⟨⟨rfl, by decide⟩, rfl, make_new_board_stuck⟩

/-- Claim C4: on every constructed board, every in-range non-hazard
cell stores exactly the number of hazards in its clipped
8-neighbourhood (the sequential in-place assignment never corrupts the
counts, because it only ever compares cells against the bomb marker). -/
theorem c4_adjacency_counts_exact (n : ℕ) (hc : ℤ) (draws : ℕ → ℕ) (fuel : ℕ)
    (b : Board) (p : ℤ × ℤ) (hdraws : ∀ i, draws i < n * n)
    (hinit : Board.init n hc draws fuel = some b)
    (hp : p ∈ gridZ n) (hns : b.board p ≠ Cell.star) :
    b.board p = Cell.num (hazard_box_count n b.board p) := by
  rw [Board.init] at hinit
  cases hmk : make_new_board n hc draws fuel with
  | none =>
    rw [hmk] at hinit
    cases hinit
  | some g0 =>
    rw [hmk] at hinit
    cases hinit
    dsimp only at hns ⊢
    have hg0ns : g0 p ≠ Cell.star :=
      fun h => hns ((assign_values_star_iff n g0 p).mpr h)
    rw [assign_values_eq g0 hp hg0ns]
    congr 1
    rw [get_num_congr (fun q => (assign_values_star_iff n g0 q).symm) p.1 p.2]
    exact get_num_eq_box _ hp

theorem c4_adjacency_counts_exact_witness :
    Board.init 2 1 exDraws 1 = some ⟨2, 1, exBoard, ∅⟩ ∧
    exBoard ((0 : ℤ), (0 : ℤ)) =
      Cell.num (hazard_box_count 2 exBoard ((0 : ℤ), (0 : ℤ))) :=
  ⟨rfl, c4_adjacency_counts_exact 2 1 exDraws 1 ⟨2, 1, exBoard, ∅⟩
    ((0 : ℤ), (0 : ℤ)) (fun i => by norm_num [exDraws]) rfl (by decide) (by decide)⟩

/-- Claim C5: on a board of any dimension `n ≥ 1` constructed with
`hazardCount = 0`, a single reveal at any in-range coordinate reveals
the entire board. -/
theorem c5_zero_hazards_full_reveal (n : ℕ) (draws : ℕ → ℕ) (fuel : ℕ)
    (b : Board) (row col : ℤ) (hinit : Board.init n 0 draws fuel = some b)
    (h1 : 0 ≤ row) (h2 : row < n) (h3 : 0 ≤ col) (h4 : col < n) :
    ∃ dug2, dig n b.board b.dug row col = DigResult.ok dug2 true ∧
      gridZ n ⊆ dug2 := by
  have hmk : make_new_board n 0 draws fuel = some blankGrid := by
    rw [make_new_board]
    cases fuel with
    | zero =>
      rw [plantLoop_zero, if_neg (by omega)]
      rfl
    | succ f =>
      rw [plantLoop_succ, if_neg (by omega)]
      rfl
  rw [Board.init, hmk] at hinit
  cases hinit
  show ∃ dug2, dig n (zeroBoard n) ∅ row col = DigResult.ok dug2 true ∧
    gridZ n ⊆ dug2
  have hnv : NoVacant n (zeroBoard n) := by
    intro p hp hv
    have h0 := zeroBoard_eq hp
    rw [h0] at hv
    cases hv
  obtain ⟨dug2, bb, hd, hmono⟩ := dig_ok hnv ∅ h1 h2 h3 h4
  have hgrid : ((row, col) : ℤ × ℤ) ∈ gridZ n := mem_gridZ.mpr ⟨h1, h2, h3, h4⟩
  have hbb : bb = true := by
    have hiff := digF_false_iff h1 h2 h3 h4
      (show digF n (zeroBoard n) (10 * n * n + 10) ∅ row col =
        DigResult.ok dug2 bb from hd)
    cases bb with
    | false =>
      have hstar := hiff.mp rfl
      rw [zeroBoard_eq hgrid] at hstar
      cases hstar
    | true => rfl
  subst hbb
  refine ⟨dug2, hd, ?_⟩
  have hclosed := (dig_closed n (zeroBoard n) (10 * n * n + 10)).1
    (∅ : Set (ℤ × ℤ)) ∅ row col dug2 true
    (fun p hp => absurd hp (Finset.not_mem_empty p))
    (show digF n (zeroBoard n) (10 * n * n + 10) ∅ row col =
      DigResult.ok dug2 true from hd)
  have hstep : ∀ p ∈ dug2, p ∈ gridZ n → ∀ q ∈ neighbors n p.1 p.2, q ∈ dug2 := by
    intro p hp hpg q hq
    rcases hclosed p hp hpg (zeroBoard_eq hpg) q hq with h | h
    · exact h
    · exact absurd h (Set.not_mem_empty q)
  exact grid_reach hgrid (hmono (Finset.mem_insert_self _ _)) hstep

theorem c5_zero_hazards_full_reveal_witness :
    Board.init 2 0 zeroDraws 0 = some ⟨2, 0, zeroBoard 2, ∅⟩ ∧
    ∃ dug2, dig 2 (zeroBoard 2) ∅ 0 0 = DigResult.ok dug2 true ∧
      gridZ 2 ⊆ dug2 :=
  ⟨rfl, c5_zero_hazards_full_reveal 2 zeroDraws 0 ⟨2, 0, zeroBoard 2, ∅⟩ 0 0 rfl
    (by decide) (by decide) (by decide) (by decide)⟩

/-- Claim C6: on any fully assigned board and in-range coordinate the
reveal recursion terminates — a fuel budget of `10·n² + 10` nested
calls is always sufficient, because recursion only proceeds to cells
not yet in the dug set, that set only grows, and the grid is finite —
and the dug set only grows. -/
theorem c6_reveal_terminates (n : ℕ) (g : Grid) (dug : Finset (ℤ × ℤ))
    (row col : ℤ) (fuel : ℕ) (hnv : NoVacant n g)
    (h1 : 0 ≤ row) (h2 : row < n) (h3 : 0 ≤ col) (h4 : col < n)
    (hfuel : 10 * n * n + 10 ≤ fuel) :
    ∃ dug2 b, digF n g fuel dug row col = DigResult.ok dug2 b ∧ dug ⊆ dug2 := by
  have hm : (gridZ n \ insert (row, col) dug).card ≤ n * n := by
    calc (gridZ n \ insert (row, col) dug).card
        ≤ (gridZ n).card := Finset.card_le_card Finset.sdiff_subset
      _ = n * n := gridZ_card n
  rw [Nat.mul_assoc] at hfuel
  obtain ⟨dug2, b, hd⟩ := (dig_fuel n g hnv fuel).1 dug row col h1 h2 h3 h4
    (by omega)
  exact ⟨dug2, b, hd, Finset.Subset.trans (Finset.subset_insert _ _)
    ((dig_mono n g fuel).1 _ _ _ _ _ hd)⟩

theorem c6_reveal_terminates_witness :
    (NoVacant 1 (zeroBoard 1) ∧ 10 * 1 * 1 + 10 ≤ 20) ∧
    ∃ dug2 b, digF 1 (zeroBoard 1) 20 ∅ 0 0 = DigResult.ok dug2 b ∧
      (∅ : Finset (ℤ × ℤ)) ⊆ dug2 :=
  ⟨⟨by decide, by decide⟩,
    c6_reveal_terminates 1 (zeroBoard 1) ∅ 0 0 20 (by decide) (by decide)
      (by decide) (by decide) (by decide) (by decide)⟩

/-- Claim C7: whenever construction with valid parameters
`0 ≤ hazardCount < dimension²` returns a board (the draws being
in-range, as `random.randint(0, n²-1)` guarantees), that board has
exactly `hazardCount` hazard cells — necessarily at distinct positions
— and an empty revealed set. -/
theorem c7_construction_exact_count (n : ℕ) (hc : ℤ) (draws : ℕ → ℕ) (fuel : ℕ)
    (b : Board) (hv0 : 0 ≤ hc) (hv1 : hc < (n : ℤ) ^ 2)
    (hdraws : ∀ i, draws i < n * n)
    (hinit : Board.init n hc draws fuel = some b) :
    starCount n b.board = hc.toNat ∧ b.dug = ∅ := by
  rw [Board.init] at hinit
  cases hmk : make_new_board n hc draws fuel with
  | none =>
    rw [hmk] at hinit
    cases hinit
  | some g0 =>
    rw [hmk] at hinit
    cases hinit
    refine ⟨?_, rfl⟩
    dsimp only
    rw [assign_starCount]
    exact make_new_board_count hdraws hv0 hmk

theorem c7_construction_exact_count_witness :
    ((0 : ℤ) ≤ 1 ∧ (1 : ℤ) < (2 : ℤ) ^ 2) ∧
    starCount 2 exBoard = (1 : ℤ).toNat ∧ (∅ : Finset (ℤ × ℤ)) = ∅ :=
  ⟨⟨by decide, by decide⟩,
    c7_construction_exact_count 2 1 exDraws 1 ⟨2, 1, exBoard, ∅⟩ (by decide)
      (by decide) (fun i => by norm_num [exDraws]) rfl⟩

/-- Claim C8 (counterexample): the win predicate as claimed — true iff
every non-hazard cell is revealed — fails on the code.  Starting from
the constructed 2×2 board with the bomb at `(1,1)`, the input sequence
`(0,0)`, `(-2,-2)`, `(-2,-1)` makes `play` print the win banner (the
dug set reaches the count threshold 3 via Python negative-index
wrapping) while the non-hazard cells `(0,1)` and `(1,0)` are still
unrevealed. -/
theorem c8_win_check_counterexample :
    Board.init 2 1 exDraws 1 = some ⟨2, 1, exBoard, ∅⟩ ∧
    play_loop 2 1 exBoard [(0, 0), (-2, -2), (-2, -1)] ∅ =
      some (true, insert ((-2 : ℤ), (-1 : ℤ)) (insert ((-2 : ℤ), (-2 : ℤ))
        (insert ((0 : ℤ), (0 : ℤ)) ∅))) ∧
    ((0 : ℤ), (1 : ℤ)) ∈ gridZ 2 ∧ exBoard ((0 : ℤ), (1 : ℤ)) ≠ Cell.star ∧
    ((0 : ℤ), (1 : ℤ)) ∉ (insert ((-2 : ℤ), (-1 : ℤ)) (insert ((-2 : ℤ), (-2 : ℤ))
      (insert ((0 : ℤ), (0 : ℤ)) ∅)) : Finset (ℤ × ℤ)) ∧
    ((1 : ℤ), (0 : ℤ)) ∉ (insert ((-2 : ℤ), (-1 : ℤ)) (insert ((-2 : ℤ), (-2 : ℤ))
      (insert ((0 : ℤ), (0 : ℤ)) ∅)) : Finset (ℤ × ℤ)) :=
  ⟨rfl, by decide, by decide, by decide, by decide, by decide⟩

theorem c8_win_check_equiv_witness :
    (({((1 : ℤ), (1 : ℤ))} : Finset (ℤ × ℤ)) ⊆ gridZ 2 ∧
      ({((1 : ℤ), (1 : ℤ))} : Finset (ℤ × ℤ)).card = 1 ∧
      ({((0 : ℤ), (0 : ℤ)), ((0 : ℤ), (1 : ℤ)), ((1 : ℤ), (0 : ℤ))} :
        Finset (ℤ × ℤ)) ⊆ gridZ 2) ∧
    (winCheck 2 ((1 : ℕ) : ℤ)
        {((0 : ℤ), (0 : ℤ)), ((0 : ℤ), (1 : ℤ)), ((1 : ℤ), (0 : ℤ))} = true ↔
      ∀ p ∈ gridZ 2, p ∉ ({((1 : ℤ), (1 : ℤ))} : Finset (ℤ × ℤ)) →
        p ∈ ({((0 : ℤ), (0 : ℤ)), ((0 : ℤ), (1 : ℤ)), ((1 : ℤ), (0 : ℤ))} :
          Finset (ℤ × ℤ))) :=
  ⟨⟨by decide, by decide, by decide⟩,
    c8_win_check_equiv (by decide) (by decide) (by decide) (by decide)⟩

/-- Claim C9: revealing an in-range, not yet revealed hazard cell
returns `False` (`HitHazard`), marks exactly that one cell revealed,
and leaves every other cell's revealed status unchanged — no cascade
from a hazard. -/
theorem c9_hazard_dig_frame (n : ℕ) (g : Grid) (dug : Finset (ℤ × ℤ))
    (row col : ℤ) (h1 : 0 ≤ row) (h2 : row < n) (h3 : 0 ≤ col) (h4 : col < n)
    (hstar : g (row, col) = Cell.star) (hnew : (row, col) ∉ dug) :
    dig n g dug row col = DigResult.ok (insert (row, col) dug) false ∧
    outcomeOf false = RevealOutcome.HitHazard ∧
    insert (row, col) dug ≠ dug ∧
    ∀ q : ℤ × ℤ, q ≠ (row, col) → (q ∈ insert (row, col) dug ↔ q ∈ dug) := by
  refine ⟨?_, rfl, ?_, fun q hqne => ?_⟩
  · rw [dig, show (10 * n * n + 10) = (10 * n * n + 9) + 1 from by omega,
      digF_succ, pyCell_in_bounds g h1 h2 h3 h4, hstar]
  · intro hself
    exact hnew (hself ▸ Finset.mem_insert_self (row, col) dug)
  · simp [Finset.mem_insert, hqne]

theorem c9_hazard_dig_frame_witness :
    (exBoard ((1 : ℤ), (1 : ℤ)) = Cell.star ∧
      ((1 : ℤ), (1 : ℤ)) ∉ (∅ : Finset (ℤ × ℤ))) ∧
    dig 2 exBoard ∅ 1 1 =
      DigResult.ok (insert ((1 : ℤ), (1 : ℤ)) ∅) false :=
  ⟨⟨by decide, by decide⟩,
    (c9_hazard_dig_frame 2 exBoard ∅ 1 1 (by decide) (by decide) (by decide)
      (by decide) (by decide) (by decide)).1⟩

/-- Claim C10: on a well-formed board (every non-hazard cell stores its
exact neighbourhood count), revealing an in-range non-hazard cell
succeeds with `True` and the flood never adds a hazard cell to the dug
set — a zero-count cell has no hazard neighbours, so the cascade only
crosses non-hazard cells — while revealing a hazard cell returns
`False`; hence `dig` returns `False` (`HitHazard`) exactly when the
initially targeted cell is a hazard. -/
theorem c10_cascade_safe (n : ℕ) (g : Grid) (dug : Finset (ℤ × ℤ))
    (row col : ℤ) (hwf : WellFormed n g)
    (h1 : 0 ≤ row) (h2 : row < n) (h3 : 0 ≤ col) (h4 : col < n) :
    (g (row, col) ≠ Cell.star →
      ∃ dug2, dig n g dug row col = DigResult.ok dug2 true ∧
        ∀ q ∈ dug2, q ∈ dug ∨ (q ∈ gridZ n ∧ g q ≠ Cell.star)) ∧
    (g (row, col) = Cell.star →
      dig n g dug row col = DigResult.ok (insert (row, col) dug) false) := by
  constructor
  · intro hns
    obtain ⟨dug2, b, hd, hmono⟩ := dig_ok (wf_no_vacant hwf) dug h1 h2 h3 h4
    have hb : b = true := by
      have hiff := digF_false_iff h1 h2 h3 h4
        (show digF n g (10 * n * n + 10) dug row col =
          DigResult.ok dug2 b from hd)
      cases b with
      | false => exact absurd (hiff.mp rfl) hns
      | true => rfl
    subst hb
    refine ⟨dug2, hd, ?_⟩
    exact (dig_no_star n g hwf (10 * n * n + 10)).1 dug row col dug2 true
      (show digF n g (10 * n * n + 10) dug row col =
        DigResult.ok dug2 true from hd)
      (mem_gridZ.mpr ⟨h1, h2, h3, h4⟩) hns
  · intro hstar
    rw [dig, show (10 * n * n + 10) = (10 * n * n + 9) + 1 from by omega,
      digF_succ, pyCell_in_bounds g h1 h2 h3 h4, hstar]

theorem c10_cascade_safe_witness :
    WellFormed 2 exBoard ∧
    (exBoard ((0 : ℤ), (0 : ℤ)) ≠ Cell.star →
      ∃ dug2, dig 2 exBoard ∅ 0 0 = DigResult.ok dug2 true ∧
        ∀ q ∈ dug2, q ∈ (∅ : Finset (ℤ × ℤ)) ∨
          (q ∈ gridZ 2 ∧ exBoard q ≠ Cell.star)) :=
  ⟨by decide,
    (c10_cascade_safe 2 exBoard ∅ 0 0 (by decide) (by decide) (by decide)
      (by decide) (by decide)).1⟩

end Minesweeper
